import Mathlib

/-!
Verification of `tools/fill_icon_urls.py` (AwardHub).

The script normalizes game names to slugs (`slugify`), probes a year-scoped
image directory for candidate files (`find_image_for`), fills each game
object's `icon_url` (`fill_game_icon`) and rewrites each JSON file only when
some `icon_url` changed (`main`).  Strings are modelled as Lean `String`
(character lists), Python dicts as ordered association lists with unique-key
update semantics, the filesystem as a boolean existence predicate on paths,
and a raised Python exception as `Option.none`.
-/

namespace FillIconUrls

/-! ### Python string primitives -/

/-- ASCII whitespace stripped by Python `str.strip()` (the script's inputs
are names; exotic Unicode whitespace plays no role in any claim). -/
def isPySpace (c : Char) : Bool :=
  c = ' ' ∨ c = '\t' ∨ c = '\n' ∨ c = '\r' ∨ c = '\x0b' ∨ c = '\x0c'

/-- Python `s.strip()`: drop leading and trailing whitespace. -/
def pyStrip (s : List Char) : List Char :=
  ((s.dropWhile isPySpace).reverse.dropWhile isPySpace).reverse

/-- Python `s.strip("_")`: drop leading and trailing underscores. -/
def stripUnderscore (s : List Char) : List Char :=
  ((s.dropWhile (fun c => c = '_')).reverse.dropWhile (fun c => c = '_')).reverse

/-- Python `s.replace("&", "and")` at character level. -/
def replaceAmp (s : List Char) : List Char :=
  s.flatMap (fun c => if c = '&' then ['a', 'n', 'd'] else [c])

/-- The characters removed by `replace("®","")`, `replace("™","")`,
`replace("’","")`, `replace("'","")`. -/
def isDropped (c : Char) : Bool :=
  c = '®' ∨ c = '™' ∨ c = '’' ∨ c = '\''

/-- The regex class `[a-z0-9]`. -/
def isLowerAlnum (c : Char) : Bool :=
  ('a' ≤ c ∧ c ≤ 'z') ∨ ('0' ≤ c ∧ c ≤ '9')

/-- Scanner for `re.sub` of a one-class-repeated pattern `p+ → r`: the flag
records whether the previous character matched `p` (i.e. the scan is inside
a run already replaced by `r`). -/
def subRunsAux (p : Char → Bool) (r : Char) : Bool → List Char → List Char
  | _, [] => []
  | inRun, c :: rest =>
    if p c then
      if inRun then subRunsAux p r true rest
      else r :: subRunsAux p r true rest
    else c :: subRunsAux p r false rest

/-- Model of `re.sub` of a one-class-repeated pattern: every maximal run of characters
matching `p` is replaced by the single character `r`. -/
def subRuns (p : Char → Bool) (r : Char) (s : List Char) : List Char :=
  subRunsAux p r false s

/-- The normalization pipeline of `slugify` (lines 21–28) before the final
`or "unknown"` fallback: trim, lowercase, `&`→`and`, drop ®/™/’/',
replace runs of non-`[a-z0-9]` by `_` (`re.sub(r"[^a-z0-9]+", "_", s)`),
collapse `_` runs (`re.sub(r"_+", "_", s)`), strip edge underscores.
`(text or "")` is the identity on the string value (`"" or ""` is `""`);
`.lower()` is ASCII lowercasing (a non-ASCII letter is replaced by `_` by
the following substitution either way). -/
def slugCore (text : String) : List Char :=
  let s := (pyStrip text.data).map Char.toLower
  let s := replaceAmp s
  let s := s.filter (fun c => !isDropped c)
  let s := subRuns (fun c => !isLowerAlnum c) '_' s
  let s := subRuns (fun c => c = '_') '_' s
  stripUnderscore s

/-- Function `slugify` (lines 20–29): the pipeline, then `return s or "unknown"`. -/
def slugify (text : String) : String :=
  if slugCore text = [] then "unknown" else ⟨slugCore text⟩

/-! ### Filesystem model and the icon locator -/

/-- Script constants (lines 13–18). -/
def PLACEHOLDER : String := "img/*"

def EXTS : List String := [".jpg", ".jpeg", ".png", ".webp"]

def SUFFIXES : List String := ["", "_2", "_3", "_4", "_5"]

/-- The filesystem as `Path.exists` (true for the paths that exist, files
and directories alike, exactly as the script queries it). -/
structure FS where
  pathExists : String → Bool

/-- Function `find_image_for` (lines 31–43): probe `img/<year>/<slug><suf><ext>` with
suffixes outer and extensions inner, returning the web-relative path of the
first hit; `none` when the year directory is absent or nothing matches. -/
def find_image_for (fs : FS) (year : Int) (base_slug : String) : Option String :=
  if fs.pathExists ("img/" ++ toString year) then
    SUFFIXES.findSome? (fun suf =>
      EXTS.findSome? (fun ext =>
        if fs.pathExists ("img/" ++ toString year ++ "/" ++ (base_slug ++ suf ++ ext)) then
          some ("img/" ++ toString year ++ "/" ++ (base_slug ++ suf ++ ext))
        else none))
  else none

/-! ### JSON values and Python dict semantics -/

/-- JSON values as Python holds them (`num` covers the integer values the
data carries; floats play no role in any claim). -/
inductive JVal where
  | null : JVal
  | bool (b : Bool) : JVal
  | num (n : Int) : JVal
  | str (s : String) : JVal
  | arr (elems : List JVal) : JVal
  | obj (fields : List (String × JVal)) : JVal

/-- A Python dict: ordered fields, read and write at the first occurrence of
a key (Python keys are unique; duplicates never arise from `json.loads`). -/
abbrev Dict := List (String × JVal)

/-- Python `d.get(k)`: the first binding of `k`, or `None`. -/
def dictGet (d : Dict) (k : String) : Option JVal :=
  match d with
  | [] => none
  | (k', v) :: rest => if k' = k then some v else dictGet rest k

/-- Python `d[k] = v`: overwrite the first binding of `k` in place, else append. -/
def dictSet (d : Dict) (k : String) (v : JVal) : Dict :=
  match d with
  | [] => [(k, v)]
  | (k', v') :: rest => if k' = k then (k, v) :: rest else (k', v') :: dictSet rest k v

/-- Python truthiness of a JSON value. -/
def pyTruthy : JVal → Bool
  | .null => false
  | .bool b => b
  | .num n => if n = 0 then false else true
  | .str s => if s = "" then false else true
  | .arr [] => false
  | .arr (_ :: _) => true
  | .obj [] => false
  | .obj (_ :: _) => true

mutual

/-- Python `==` on JSON values: deep structural equality.  (Python's numeric
cross-type equalities such as `True == 1` never matter here: every comparison
the script makes has a string on one side.) -/
def beqJ : JVal → JVal → Bool
  | .null, .null => true
  | .bool a, .bool b => a = b
  | .num a, .num b => a = b
  | .str a, .str b => a = b
  | .arr a, .arr b => beqArr a b
  | .obj a, .obj b => beqObj a b
  | _, _ => false

def beqArr : List JVal → List JVal → Bool
  | [], [] => true
  | a :: as, b :: bs => beqJ a b && beqArr as bs
  | _, _ => false

def beqObj : List (String × JVal) → List (String × JVal) → Bool
  | [], [] => true
  | (k, v) :: as, (k2, v2) :: bs => k = k2 && beqJ v v2 && beqObj as bs
  | _, _ => false

end

/-- Python `==` on `d.get(k)` results (`None` equals only `None`). -/
def beqOptJ : Option JVal → Option JVal → Bool
  | none, none => true
  | some a, some b => beqJ a b
  | _, _ => false

/-! ### The record filler -/

/-- Model of `(game_obj.get("game_name") or "")` followed by `.strip()`’s receiver
check: a falsy value (absent, `None`, `False`, `0`, `""`, `[]`, `{}`)
becomes `""`, a truthy string is itself, and `.strip()` on a truthy
non-string raises `AttributeError` (`none`). -/
def getStrOrEmpty (v : Option JVal) : Option String :=
  match v with
  | none => some ""
  | some w =>
    if pyTruthy w then
      match w with
      | .str s => some s
      | _ => none
    else some ""

/-- Python `img_path if img_path else PLACEHOLDER`: a falsy (`None` or
empty) path falls back to the placeholder. -/
def pathOrPlaceholder (img_path : Option String) : String :=
  match img_path with
  | some p => if p = "" then PLACEHOLDER else p
  | none => PLACEHOLDER

/-- Function `fill_game_icon` (lines 45–55): empty stripped name gets the
placeholder with no lookup; otherwise slugify, locate, and assign the found
path or the placeholder.  `none` models a raised exception. -/
def fill_game_icon (fs : FS) (year : Int) (game_obj : Dict) : Option Dict := do
  let raw ← getStrOrEmpty (dictGet game_obj "game_name")
  let name := String.mk (pyStrip raw.data)
  if name = "" then
    return dictSet game_obj "icon_url" (.str PLACEHOLDER)
  let base_slug := slugify name
  let img_path := find_image_for fs year base_slug
  return dictSet game_obj "icon_url" (.str (pathOrPlaceholder img_path))

/-! ### The batch driver (`main`, lines 58–95) -/

/-- Decimal digits accumulated left to right; `none` on a non-digit. -/
def digitsToNat : List Char → Nat → Option Nat
  | [], acc => some acc
  | c :: rest, acc =>
    if '0' ≤ c ∧ c ≤ '9' then digitsToNat rest (acc * 10 + (c.toNat - '0'.toNat))
    else none

/-- Python `int(s)` on a string: optional sign, then at least one decimal digit
(Python's digit-group underscores never occur in a year value and bear on
no claim). -/
def parseInt (s : List Char) : Option Int :=
  match s with
  | [] => none
  | '+' :: [] => none
  | '+' :: rest => (digitsToNat rest 0).map Int.ofNat
  | '-' :: [] => none
  | '-' :: rest => (digitsToNat rest 0).map (fun n => -(Int.ofNat n))
  | _ => (digitsToNat s 0).map Int.ofNat

/-- Python `int(x)` on a JSON value: `none` models the raised `TypeError` /
`ValueError` when the value is absent, `null`, a list, a dict, or a string
that does not parse as an integer (`int(...)` strips whitespace first). -/
def pyInt (v : Option JVal) : Option Int :=
  match v with
  | some (.num n) => some n
  | some (.bool b) => some (if b then 1 else 0)
  | some (.str s) => parseInt (pyStrip s.data)
  | _ => none

/-- One `fill_game_icon` call plus the driver's change check
(`winner.get("icon_url") != before`). -/
def processGame (fs : FS) (year : Int) (g : Dict) : Option (Dict × Bool) :=
  match fill_game_icon fs year g with
  | none => none
  | some g' => some (g', !beqOptJ (dictGet g' "icon_url") (dictGet g "icon_url"))

/-- The winner step of the driver's loop body (lines 73–78): a winner that
is a dict is filled in place; anything else is skipped. -/
def processWinner (fs : FS) (year : Int) (award : Dict) : Option (Dict × Bool) :=
  match dictGet award "winner" with
  | some (.obj w) =>
    match processGame fs year w with
    | none => none
    | some (w', ch) => some (dictSet award "winner" (.obj w'), ch)
  | _ => some (award, false)

/-- The nominee loop (lines 83–88): dict entries are filled in place,
non-dict entries are skipped (`continue`); the flags are or-ed. -/
def processNomList (fs : FS) (year : Int) : List JVal → Option (List JVal × Bool)
  | [] => some ([], false)
  | .obj g :: rest =>
    (match processGame fs year g with
    | none => none
    | some (g', ch) =>
      match processNomList fs year rest with
      | none => none
      | some (rest', ch2) => some (.obj g' :: rest', ch || ch2))
  | v :: rest =>
    (match processNomList fs year rest with
    | none => none
    | some (rest', ch2) => some (v :: rest', ch2))

/-- The nominees step (lines 80–88): `award.get("nominees") or []` then
`isinstance(nominees, list)`: only a truthy list is iterated (a falsy value
is replaced by a fresh empty list, a truthy non-list fails `isinstance`);
in both skip cases the award is untouched. -/
def processNominees (fs : FS) (year : Int) (award : Dict) : Option (Dict × Bool) :=
  match dictGet award "nominees" with
  | some (.arr (v :: rest)) =>
    (match processNomList fs year (v :: rest) with
    | none => none
    | some (l', ch) => some (dictSet award "nominees" (.arr l'), ch))
  | _ => some (award, false)

/-- One award of the loop (lines 72–88): winner first, then nominees. -/
def processAward (fs : FS) (year : Int) (award : Dict) : Option (Dict × Bool) :=
  match processWinner fs year award with
  | none => none
  | some (a1, ch1) =>
    match processNominees fs year a1 with
    | none => none
    | some (a2, ch2) => some (a2, ch1 || ch2)

/-- Loop `for award in data.get("awards", [])`: each award must be a dict for
`award.get(...)` to succeed; the change flags accumulate. -/
def processAwards (fs : FS) (year : Int) : List JVal → Option (List JVal × Bool)
  | [] => some ([], false)
  | .obj a :: rest =>
    (match processAward fs year a with
    | none => none
    | some (a', ch) =>
      match processAwards fs year rest with
      | none => none
      | some (rest', ch2) => some (.obj a' :: rest', ch || ch2))
  | _ => none

/-- Reading `data.get("awards", [])` as an iterable of awards: absent means the
fresh default `[]`; a list is itself; iterating anything non-empty that is
not a list puts a non-dict award in the loop, where `award.get("winner")`
raises (`none`); an empty string or dict iterates zero times. -/
def getAwards (v : Option JVal) : Option (List JVal) :=
  match v with
  | none => some []
  | some (.arr l) => some l
  | some (.str s) => if s = "" then some [] else none
  | some (.obj []) => some []
  | _ => none

/-- Writing the processed awards back into `data`: the list object inside
`data` was mutated element-wise, so only a real `awards` list changes. -/
def setAwards (data : Dict) (l' : List JVal) : Dict :=
  match dictGet data "awards" with
  | some (.arr _) => dictSet data "awards" (.arr l')
  | _ => data

/-- One file of the driver loop (lines 72–88): coerce `year`, process every
award, and report the mutated top-level object plus the `changed` flag. -/
def processFile (fs : FS) (data : Dict) : Option (Dict × Bool) :=
  match pyInt (dictGet data "year") with
  | none => none
  | some year =>
    match getAwards (dictGet data "awards") with
    | none => none
    | some awards =>
      match processAwards fs year awards with
      | none => none
      | some (awards', ch) => some (setAwards data awards', ch)

/-- The whole run over the sorted file list (lines 71–93).  Per file the
result records the write the driver performs: `some d'` when `changed` made
it rewrite the file with the mutated object, `none` when it skipped the
write.  The boolean is `true` when the run completed; an exception stops
the loop, so a failing file ends the run with no further writes. -/
def runFiles (fs : FS) : List Dict → List (Option Dict) × Bool
  | [] => ([], true)
  | d :: rest =>
    match processFile fs d with
    | none => ([], false)
    | some (d', ch) =>
      let r := runFiles fs rest
      ((if ch then some d' else none) :: r.1, r.2)

/-! ### Derived definitions used by the statements -/

/-- The candidate filenames in the spec's words: the suffix list crossed
with the extension list, suffix-major, extension-minor. -/
def candidateNames (base_slug : String) : List String :=
  SUFFIXES.flatMap (fun suf => EXTS.map (fun ext => base_slug ++ suf ++ ext))

/-- The Icon Locator as the spec words it: within the year-scoped
directory, the first existing candidate as a web-relative path
`img/<year>/<filename>`; "not found" when the year directory is absent or
no candidate exists. -/
def find_image_spec (fs : FS) (year : Int) (base_slug : String) : Option String :=
  if fs.pathExists ("img/" ++ toString year) then
    ((candidateNames base_slug).find?
        (fun f => fs.pathExists ("img/" ++ toString year ++ "/" ++ f))).map
      (fun f => "img/" ++ toString year ++ "/" ++ f)
  else none

/-- The string `fill_game_icon` assigns to `icon_url` when the name lookup
yielded the string `raw`: the placeholder for an empty stripped name,
otherwise the located path or the placeholder. -/
def fillValue (fs : FS) (year : Int) (raw : String) : String :=
  if String.mk (pyStrip raw.data) = "" then PLACEHOLDER
  else pathOrPlaceholder (find_image_for fs year (slugify (String.mk (pyStrip raw.data))))

/-- A game object's `icon_url` is filled: a non-empty string that is the
placeholder or a web-relative path `img/<year>/<filename>`. -/
def iconOk (year : Int) (g : Dict) : Prop :=
  ∃ u : String, dictGet g "icon_url" = some (.str u) ∧ u ≠ "" ∧
    (u = PLACEHOLDER ∨ ∃ fname, fname ≠ "" ∧ u = "img/" ++ toString year ++ "/" ++ fname)

/-! ## Lemmas: dict semantics -/

theorem dictGet_dictSet_self (d : Dict) (k : String) (v : JVal) :
    dictGet (dictSet d k v) k = some v := by
  induction d with
  | nil => simp [dictGet, dictSet]
  | cons p rest ih =>
    obtain ⟨k', v'⟩ := p
    by_cases h : k' = k <;> simp [dictGet, dictSet, h, ih]

theorem dictGet_dictSet_ne (d : Dict) (k k' : String) (v : JVal) (h : k' ≠ k) :
    dictGet (dictSet d k v) k' = dictGet d k' := by
  induction d with
  | nil =>
    have hne : ¬ k = k' := fun hh => h hh.symm
    simp [dictGet, dictSet, hne]
  | cons p rest ih =>
    obtain ⟨k0, v0⟩ := p
    by_cases h0 : k0 = k
    · subst h0
      have hne : ¬ k0 = k' := fun hh => h hh.symm
      simp [dictGet, dictSet, hne]
    · by_cases h1 : k0 = k' <;> simp [dictGet, dictSet, h0, h1, ih, h]

theorem dictSet_eq_self (d : Dict) (k : String) (v : JVal)
    (h : dictGet d k = some v) : dictSet d k v = d := by
  induction d with
  | nil => simp [dictGet] at h
  | cons p rest ih =>
    obtain ⟨k0, v0⟩ := p
    by_cases h0 : k0 = k
    · subst h0
      simp [dictGet] at h
      simp [dictSet, h]
    · simp [dictGet, h0] at h
      simp [dictSet, h0, ih h]

theorem dictSet_dictSet (d : Dict) (k : String) (v v' : JVal) :
    dictSet (dictSet d k v) k v' = dictSet d k v' := by
  induction d with
  | nil => simp [dictSet]
  | cons p rest ih =>
    obtain ⟨k0, v0⟩ := p
    by_cases h0 : k0 = k <;> simp [dictSet, h0, ih]

theorem ne_of_dictGet_ne (d d' : Dict) (k : String)
    (h : dictGet d k ≠ dictGet d' k) : d ≠ d' := fun he => h (he ▸ rfl)

/-! ## Lemmas: Python equality on values -/

theorem beqJ_str_iff (s : String) (v : JVal) : beqJ (.str s) v = true ↔ v = .str s := by
  cases v <;> simp [beqJ, eq_comm]

theorem beqOptJ_str_iff (s : String) (o : Option JVal) :
    beqOptJ (some (.str s)) o = true ↔ o = some (.str s) := by
  cases o with
  | none => simp [beqOptJ]
  | some v => simpa [beqOptJ] using beqJ_str_iff s v

/-! ## Lemmas: the slug pipeline -/

theorem head?_dropWhile_ne (p : Char → Bool) (l : List Char) :
    ∀ c ∈ (l.dropWhile p).head?, p c = false := by
  intro c hc
  have hm := List.head?_dropWhile_not p l
  cases hh : (l.dropWhile p).head? with
  | none => rw [hh] at hc; cases hc
  | some x =>
    rw [hh] at hc hm
    cases hc
    exact hm

theorem mem_subRunsAux (p : Char → Bool) (r : Char) (s : List Char) :
    ∀ b, ∀ c ∈ subRunsAux p r b s, c = r ∨ (p c = false ∧ c ∈ s) := by
  induction s with
  | nil => intro b c hc; simp [subRunsAux] at hc
  | cons x rest ih =>
    intro b c hc
    by_cases hx : p x
    · cases b with
      | true =>
        rw [subRunsAux, if_pos hx, if_pos rfl] at hc
        rcases ih true c hc with h | ⟨h1, h2⟩
        · exact Or.inl h
        · exact Or.inr ⟨h1, List.mem_cons_of_mem x h2⟩
      | false =>
        rw [subRunsAux, if_pos hx, if_neg (by simp)] at hc
        rcases List.mem_cons.mp hc with h | h
        · exact Or.inl h
        · rcases ih true c h with h' | ⟨h1, h2⟩
          · exact Or.inl h'
          · exact Or.inr ⟨h1, List.mem_cons_of_mem x h2⟩
    · rw [subRunsAux, if_neg hx] at hc
      rcases List.mem_cons.mp hc with h | h
      · subst h
        exact Or.inr ⟨by simpa using hx, List.mem_cons_self c rest⟩
      · rcases ih false c h with h' | ⟨h1, h2⟩
        · exact Or.inl h'
        · exact Or.inr ⟨h1, List.mem_cons_of_mem x h2⟩

theorem mem_subRuns (p : Char → Bool) (r : Char) (s : List Char) :
    ∀ c ∈ subRuns p r s, c = r ∨ (p c = false ∧ c ∈ s) :=
  mem_subRunsAux p r s false

/-- In the in-run state, the scanner only ever emits a `p`-failing character
first. -/
theorem subRunsAux_true_head? (p : Char → Bool) (r : Char) (s : List Char) :
    ∀ c ∈ (subRunsAux p r true s).head?, p c = false := by
  induction s with
  | nil => intro c hc; simp [subRunsAux] at hc
  | cons x rest ih =>
    intro c hc
    by_cases hx : p x
    · rw [subRunsAux, if_pos hx, if_pos rfl] at hc
      exact ih c hc
    · rw [subRunsAux, if_neg hx] at hc
      cases hc
      simpa using hx

/-- After a run substitution, no two adjacent characters both match `p`. -/
theorem subRuns_chain' (p : Char → Bool) (r : Char) (s : List Char) :
    List.Chain' (fun a b => p a = false ∨ p b = false) (subRuns p r s) := by
  rw [subRuns]
  have main : ∀ t : List Char, ∀ b,
      List.Chain' (fun a c => p a = false ∨ p c = false) (subRunsAux p r b t) := by
    intro t
    induction t with
    | nil => intro b; simp [subRunsAux]
    | cons x rest ih =>
      intro b
      by_cases hx : p x
      · cases b with
        | true =>
          rw [subRunsAux, if_pos hx, if_pos rfl]
          exact ih true
        | false =>
          rw [subRunsAux, if_pos hx, if_neg (by simp)]
          exact List.chain'_cons'.mpr
            ⟨fun y hy => Or.inr (subRunsAux_true_head? p r rest y hy), ih true⟩
      · rw [subRunsAux, if_neg hx]
        exact List.chain'_cons'.mpr ⟨fun y _ => Or.inl (by simpa using hx), ih false⟩
  exact main s false

theorem stripUnderscore_subset (s : List Char) : ∀ c ∈ stripUnderscore s, c ∈ s := by
  intro c hc
  unfold stripUnderscore at hc
  rw [List.mem_reverse] at hc
  have h1 := List.dropWhile_subset _ hc
  rw [List.mem_reverse] at h1
  exact List.dropWhile_subset _ h1

theorem stripUnderscore_chain' {R : Char → Char → Prop}
    (hsymm : ∀ a b, R a b → R b a) {s : List Char}
    (h : List.Chain' R s) : List.Chain' R (stripUnderscore s) := by
  unfold stripUnderscore
  have h1 : List.Chain' R (s.dropWhile (fun c => c = '_')) :=
    h.suffix (List.dropWhile_suffix _)
  have h2 : List.Chain' R ((s.dropWhile (fun c => c = '_')).reverse) :=
    List.chain'_reverse.mpr (h1.imp (fun _ _ hr => hsymm _ _ hr))
  have h3 : List.Chain' R
      (((s.dropWhile (fun c => c = '_')).reverse).dropWhile (fun c => c = '_')) :=
    h2.suffix (List.dropWhile_suffix _)
  exact List.chain'_reverse.mpr (h3.imp (fun _ _ hr => hsymm _ _ hr))

theorem stripUnderscore_getLast? (s : List Char) :
    ∀ c ∈ (stripUnderscore s).getLast?, ¬ c = '_' := by
  intro c hc
  unfold stripUnderscore at hc
  rw [List.getLast?_reverse] at hc
  have := head?_dropWhile_ne (fun c => c = '_') ((s.dropWhile (fun c => c = '_')).reverse) c hc
  simpa using this

theorem stripUnderscore_head? (s : List Char) :
    ∀ c ∈ (stripUnderscore s).head?, ¬ c = '_' := by
  intro c hc
  unfold stripUnderscore at hc
  rw [List.head?_reverse] at hc
  set m₀ := (s.dropWhile (fun c => c = '_')).reverse with hm₀
  obtain ⟨t, ht⟩ := List.dropWhile_suffix (l := m₀) (fun c => c = '_')
  have hlast : m₀.getLast? = some c := by
    rw [← ht, List.getLast?_append, hc]
    rfl
  rw [hm₀, List.getLast?_reverse] at hlast
  have := head?_dropWhile_ne (fun c => c = '_') s c hlast
  simpa using this

theorem slugCore_chars (text : String) :
    ∀ c ∈ slugCore text, isLowerAlnum c = true ∨ c = '_' := by
  intro c hc
  simp only [slugCore] at hc
  have hc1 := stripUnderscore_subset _ c hc
  rcases mem_subRuns _ _ _ c hc1 with h | ⟨_, h2⟩
  · exact Or.inr h
  · rcases mem_subRuns _ _ _ c h2 with h | ⟨hp, _⟩
    · exact Or.inr h
    · exact Or.inl (by simpa using hp)

theorem slugCore_chain' (text : String) :
    List.Chain' (fun a b => ¬(a = '_' ∧ b = '_')) (slugCore text) := by
  simp only [slugCore]
  apply stripUnderscore_chain' (fun a b h => fun ⟨h1, h2⟩ => h ⟨h2, h1⟩)
  have h := subRuns_chain' (fun c => c = '_') '_'
    (subRuns (fun c => !isLowerAlnum c) '_'
      (((pyStrip text.data).map Char.toLower |> replaceAmp).filter (fun c => !isDropped c)))
  exact h.imp (fun a b hr => by
    rcases hr with h' | h' <;> simp_all)

theorem slugCore_head? (text : String) :
    ∀ c ∈ (slugCore text).head?, ¬ c = '_' := by
  simp only [slugCore]
  exact stripUnderscore_head? _

theorem slugCore_getLast? (text : String) :
    ∀ c ∈ (slugCore text).getLast?, ¬ c = '_' := by
  simp only [slugCore]
  exact stripUnderscore_getLast? _

/-! ## Lemmas: the icon locator -/

theorem map_findSome? {α β γ : Type} (h : β → γ) (f : α → Option β) (l : List α) :
    (l.findSome? f).map h = l.findSome? (fun a => (f a).map h) := by
  induction l with
  | nil => rfl
  | cons x xs ih => cases hx : f x <;> simp [List.findSome?_cons, hx, ih]

theorem findSome?_if_eq_find?_map {α β : Type} (p : α → Bool) (h : α → β) (l : List α) :
    l.findSome? (fun a => if p a then some (h a) else none) = (l.find? p).map h := by
  induction l with
  | nil => rfl
  | cons x xs ih => by_cases hx : p x <;> simp [List.findSome?_cons, List.find?_cons, hx, ih]

theorem find?_flatMap {α β : Type} (l : List α) (g : α → List β) (q : β → Bool) :
    (l.flatMap g).find? q = l.findSome? (fun a => (g a).find? q) := by
  induction l with
  | nil => rfl
  | cons x xs ih =>
    rw [List.flatMap_cons, List.find?_append, List.findSome?_cons]
    cases hx : (g x).find? q <;> simp [hx, ih]

/-- C2: the Icon Locator probes the candidates `<slug><suffix><ext>` in the
year-scoped directory in nested order — suffixes `["", "_2", "_3", "_4",
"_5"]` outer, extensions `[".jpg", ".jpeg", ".png", ".webp"]` inner —
returns the web-relative path `img/<year>/<filename>` of the first existing
candidate, and returns `none` when the year directory does not exist or no
candidate exists. -/
theorem find_image_for_as_spec (fs : FS) (year : Int) (base_slug : String) :
    find_image_for fs year base_slug = find_image_spec fs year base_slug := by
  rw [find_image_for, find_image_spec]
  by_cases hd : fs.pathExists ("img/" ++ toString year) = true
  · rw [if_pos hd, if_pos hd]
    rw [candidateNames, find?_flatMap, map_findSome?]
    refine congrArg (fun f => List.findSome? f SUFFIXES) (funext fun suf => ?_)
    rw [← findSome?_if_eq_find?_map, List.findSome?_map]
    rfl
  · rw [if_neg hd, if_neg hd]

theorem find_image_for_shape (fs : FS) (year : Int) (base_slug u : String)
    (h : find_image_for fs year base_slug = some u) :
    ∃ suf ∈ SUFFIXES, ∃ ext ∈ EXTS,
      u = "img/" ++ toString year ++ "/" ++ (base_slug ++ suf ++ ext) ∧
      fs.pathExists ("img/" ++ toString year ++ "/" ++ (base_slug ++ suf ++ ext)) = true := by
  rw [find_image_for] at h
  by_cases hd : fs.pathExists ("img/" ++ toString year) = true
  · rw [if_pos hd] at h
    obtain ⟨suf, hsuf, h2⟩ := List.exists_of_findSome?_eq_some h
    obtain ⟨ext, hext, h3⟩ := List.exists_of_findSome?_eq_some h2
    refine ⟨suf, hsuf, ext, hext, ?_⟩
    by_cases hp : fs.pathExists ("img/" ++ toString year ++ "/" ++ (base_slug ++ suf ++ ext)) = true
    · rw [if_pos hp] at h3
      cases h3
      exact ⟨rfl, hp⟩
    · rw [if_neg hp] at h3
      cases h3
  · rw [if_neg hd] at h
    cases h

theorem append_ne_empty_of_right (a b : String) (hb : b ≠ "") : a ++ b ≠ "" := by
  intro he
  apply hb
  have := congrArg String.data he
  rw [String.data_append] at this
  have hbd : b.data = [] := (List.append_eq_nil.mp this).2
  exact String.ext hbd

/-- A located path is a non-empty `img/<year>/<filename>` with a non-empty
filename. -/
theorem find_image_for_found (fs : FS) (year : Int) (base_slug u : String)
    (h : find_image_for fs year base_slug = some u) :
    u ≠ "" ∧ ∃ fname, fname ≠ "" ∧ u = "img/" ++ toString year ++ "/" ++ fname := by
  obtain ⟨suf, _, ext, hext, he, _⟩ := find_image_for_shape fs year base_slug u h
  have hextne : ext ≠ "" := by
    simp only [EXTS, List.mem_cons, List.not_mem_nil, or_false] at hext
    rcases hext with h' | h' | h' | h' <;> subst h' <;> decide
  have hfname : base_slug ++ suf ++ ext ≠ "" := append_ne_empty_of_right _ _ hextne
  refine ⟨?_, base_slug ++ suf ++ ext, hfname, he⟩
  rw [he]
  exact append_ne_empty_of_right _ _ hfname

/-! ## Lemmas: the record filler -/

theorem fill_game_icon_eq (fs : FS) (year : Int) (g : Dict) (raw : String)
    (hraw : getStrOrEmpty (dictGet g "game_name") = some raw) :
    fill_game_icon fs year g =
      some (dictSet g "icon_url" (JVal.str (fillValue fs year raw))) := by
  rw [fill_game_icon, hraw, fillValue]
  by_cases hn : String.mk (pyStrip raw.data) = ""
  · simp [Option.bind, hn]
  · simp [Option.bind, hn]

theorem fill_game_icon_none (fs : FS) (year : Int) (g : Dict)
    (hraw : getStrOrEmpty (dictGet g "game_name") = none) :
    fill_game_icon fs year g = none := by
  rw [fill_game_icon, hraw]
  rfl

/-- The assigned value is the placeholder or a located path. -/
theorem fillValue_cases (fs : FS) (year : Int) (raw : String) :
    fillValue fs year raw = PLACEHOLDER ∨
      find_image_for fs year (slugify (String.mk (pyStrip raw.data)))
        = some (fillValue fs year raw) := by
  rw [fillValue]
  by_cases hn : String.mk (pyStrip raw.data) = ""
  · rw [if_pos hn]; exact Or.inl rfl
  · rw [if_neg hn]
    cases hf : find_image_for fs year (slugify (String.mk (pyStrip raw.data))) with
    | none => exact Or.inl rfl
    | some p =>
      have hne := (find_image_for_found fs year _ p hf).1
      simp [pathOrPlaceholder, hne]

/-- C1: for every input string the slug contains only characters from
`[a-z0-9_]`, has no two consecutive underscores, no leading or trailing
underscore, is non-empty, and an input that is empty or whose normalization
pipeline reduces to empty yields the fixed fallback token `"unknown"`.  (In
particular every slug — so the slug of any name over letters, digits,
spaces and `&` — consists of lowercase letters, digits and single
underscores only.) -/
theorem slugify_wellformed (text : String) :
    (∀ c ∈ (slugify text).data, isLowerAlnum c = true ∨ c = '_')
    ∧ List.Chain' (fun a b => ¬(a = '_' ∧ b = '_')) (slugify text).data
    ∧ (∀ c ∈ (slugify text).data.head?, ¬ c = '_')
    ∧ (∀ c ∈ (slugify text).data.getLast?, ¬ c = '_')
    ∧ (slugify text).data ≠ []
    ∧ ((text = "" ∨ slugCore text = []) → slugify text = "unknown") := by
  by_cases h : slugCore text = []
  · rw [slugify, if_pos h]
    refine ⟨by decide, ?_, by decide, by decide, by decide, fun _ => rfl⟩
    show List.Chain' _ ['u', 'n', 'k', 'n', 'o', 'w', 'n']
    simp [List.chain'_cons]
  · have hdata : (slugify text).data = slugCore text := by
      rw [slugify, if_neg h]
    rw [hdata]
    refine ⟨slugCore_chars text, slugCore_chain' text, slugCore_head? text,
      slugCore_getLast? text, h, ?_⟩
    rintro (he | he)
    · subst he
      exact absurd (by decide) h
    · exact absurd he h

/-! ## Lemmas: the driver and the `icon_url` invariant -/

theorem processWinner_obj (fs : FS) (year : Int) (award : Dict) (w : Dict)
    (hw : dictGet award "winner" = some (.obj w)) :
    processWinner fs year award =
      match processGame fs year w with
      | none => none
      | some (w', ch) => some (dictSet award "winner" (.obj w'), ch) := by
  rw [processWinner, hw]

theorem processWinner_skip (fs : FS) (year : Int) (award : Dict)
    (hw : ∀ w : Dict, dictGet award "winner" ≠ some (.obj w)) :
    processWinner fs year award = some (award, false) := by
  rw [processWinner]
  cases hv : dictGet award "winner" with
  | none => rfl
  | some v =>
    cases v with
    | obj w => exact absurd hv (hw w)
    | null => rfl
    | bool b => rfl
    | num n => rfl
    | str s => rfl
    | arr l => rfl

theorem processNomList_cons_obj (fs : FS) (year : Int) (g : Dict) (rest : List JVal) :
    processNomList fs year (.obj g :: rest) =
      match processGame fs year g with
      | none => none
      | some (g', ch) =>
        match processNomList fs year rest with
        | none => none
        | some (rest', ch2) => some (.obj g' :: rest', ch || ch2) := rfl

theorem processNomList_cons_skip (fs : FS) (year : Int) (v : JVal) (rest : List JVal)
    (hv : ∀ g : Dict, v ≠ .obj g) :
    processNomList fs year (v :: rest) =
      match processNomList fs year rest with
      | none => none
      | some (rest', ch2) => some (v :: rest', ch2) := by
  cases v with
  | obj g => exact absurd rfl (hv g)
  | null => rfl
  | bool b => rfl
  | num n => rfl
  | str s => rfl
  | arr l => rfl

theorem processNominees_arr (fs : FS) (year : Int) (award : Dict)
    (v : JVal) (rest : List JVal)
    (hn : dictGet award "nominees" = some (.arr (v :: rest))) :
    processNominees fs year award =
      match processNomList fs year (v :: rest) with
      | none => none
      | some (l', ch) => some (dictSet award "nominees" (.arr l'), ch) := by
  rw [processNominees, hn]

theorem processNominees_skip (fs : FS) (year : Int) (award : Dict)
    (hn : ∀ v : JVal, ∀ rest : List JVal,
      dictGet award "nominees" ≠ some (.arr (v :: rest))) :
    processNominees fs year award = some (award, false) := by
  rw [processNominees]
  cases hv : dictGet award "nominees" with
  | none => rfl
  | some v =>
    cases v with
    | arr l =>
      cases l with
      | nil => rfl
      | cons x xs => exact absurd hv (hn x xs)
    | null => rfl
    | bool b => rfl
    | num n => rfl
    | str s => rfl
    | obj o => rfl

theorem fill_game_icon_iconOk (fs : FS) (year : Int) (g g' : Dict)
    (h : fill_game_icon fs year g = some g') : iconOk year g' := by
  cases hraw : getStrOrEmpty (dictGet g "game_name") with
  | none => rw [fill_game_icon_none fs year g hraw] at h; cases h
  | some raw =>
    rw [fill_game_icon_eq fs year g raw hraw] at h
    cases h
    refine ⟨fillValue fs year raw, dictGet_dictSet_self g "icon_url" _, ?_, ?_⟩
    · rcases fillValue_cases fs year raw with hc | hc
      · rw [hc]; decide
      · exact (find_image_for_found fs year _ _ hc).1
    · rcases fillValue_cases fs year raw with hc | hc
      · exact Or.inl hc
      · obtain ⟨_, fname, hf1, hf2⟩ := find_image_for_found fs year _ _ hc
        exact Or.inr ⟨fname, hf1, hf2⟩

theorem processGame_some (fs : FS) (year : Int) (g g' : Dict) (ch : Bool)
    (h : processGame fs year g = some (g', ch)) :
    fill_game_icon fs year g = some g'
    ∧ ch = !beqOptJ (dictGet g' "icon_url") (dictGet g "icon_url") := by
  rw [processGame] at h
  cases hf : fill_game_icon fs year g with
  | none => rw [hf] at h; cases h
  | some g2 =>
    rw [hf] at h
    dsimp only at h
    cases h
    exact ⟨rfl, rfl⟩

theorem processWinner_winner_iconOk (fs : FS) (year : Int) (award a1 : Dict) (ch1 : Bool)
    (h : processWinner fs year award = some (a1, ch1)) :
    ∀ w', dictGet a1 "winner" = some (.obj w') → iconOk year w' := by
  by_cases hobj : ∃ w : Dict, dictGet award "winner" = some (.obj w)
  · obtain ⟨w, hw⟩ := hobj
    rw [processWinner_obj fs year award w hw] at h
    cases hg : processGame fs year w with
    | none => rw [hg] at h; cases h
    | some p =>
      obtain ⟨w', c⟩ := p
      rw [hg] at h
      dsimp only at h
      cases h
      intro w0 hw0
      rw [dictGet_dictSet_self] at hw0
      cases Option.some.inj hw0
      exact fill_game_icon_iconOk fs year w w' (processGame_some fs year w w' _ hg).1
  · rw [processWinner_skip fs year award (fun w hw => hobj ⟨w, hw⟩)] at h
    cases h
    intro w0 hw0
    exact absurd ⟨w0, hw0⟩ hobj

theorem processWinner_nominees (fs : FS) (year : Int) (award a1 : Dict) (ch1 : Bool)
    (h : processWinner fs year award = some (a1, ch1)) :
    dictGet a1 "nominees" = dictGet award "nominees" := by
  by_cases hobj : ∃ w : Dict, dictGet award "winner" = some (.obj w)
  · obtain ⟨w, hw⟩ := hobj
    rw [processWinner_obj fs year award w hw] at h
    cases hg : processGame fs year w with
    | none => rw [hg] at h; cases h
    | some p =>
      obtain ⟨w', c⟩ := p
      rw [hg] at h
      dsimp only at h
      cases h
      exact dictGet_dictSet_ne award "winner" "nominees" _ (by decide)
  · rw [processWinner_skip fs year award (fun w hw => hobj ⟨w, hw⟩)] at h
    cases h
    rfl

theorem processNomList_iconOk (fs : FS) (year : Int) (l l' : List JVal) (ch : Bool)
    (h : processNomList fs year l = some (l', ch)) :
    ∀ n ∈ l', ∀ g : Dict, n = .obj g → iconOk year g := by
  induction l generalizing l' ch with
  | nil =>
    rw [processNomList] at h
    cases h
    intro n hn
    cases hn
  | cons v rest ih =>
    by_cases hobj : ∃ g0 : Dict, v = .obj g0
    · obtain ⟨g0, rfl⟩ := hobj
      rw [processNomList_cons_obj] at h
      cases hg : processGame fs year g0 with
      | none => rw [hg] at h; cases h
      | some p =>
        obtain ⟨g0', c⟩ := p
        rw [hg] at h
        dsimp only at h
        cases hr : processNomList fs year rest with
        | none => rw [hr] at h; cases h
        | some q =>
          obtain ⟨rest', c2⟩ := q
          rw [hr] at h
          dsimp only at h
          cases h
          intro n hn g hng
          rcases List.mem_cons.mp hn with h2 | h2
          · rw [h2] at hng
            cases hng
            exact fill_game_icon_iconOk fs year g0 g0'
              (processGame_some fs year g0 g0' _ hg).1
          · exact ih rest' _ hr n h2 g hng
    · have hv : ∀ g : Dict, v ≠ .obj g := fun g he => hobj ⟨g, he⟩
      rw [processNomList_cons_skip fs year v rest hv] at h
      cases hr : processNomList fs year rest with
      | none => rw [hr] at h; cases h
      | some q =>
        obtain ⟨rest', c2⟩ := q
        rw [hr] at h
        dsimp only at h
        cases h
        intro n hn g hng
        rcases List.mem_cons.mp hn with h2 | h2
        · rw [h2] at hng
          exact absurd hng (hv g)
        · exact ih rest' _ hr n h2 g hng


theorem processNominees_winner (fs : FS) (year : Int) (a1 a2 : Dict) (ch2 : Bool)
    (h : processNominees fs year a1 = some (a2, ch2)) :
    dictGet a2 "winner" = dictGet a1 "winner" := by
  by_cases harr : ∃ v : JVal, ∃ rest : List JVal,
      dictGet a1 "nominees" = some (.arr (v :: rest))
  · obtain ⟨v, rest, hn⟩ := harr
    rw [processNominees_arr fs year a1 v rest hn] at h
    cases hL : processNomList fs year (v :: rest) with
    | none => rw [hL] at h; cases h
    | some q =>
      obtain ⟨l', c⟩ := q
      rw [hL] at h
      dsimp only at h
      cases h
      exact dictGet_dictSet_ne a1 "nominees" "winner" _ (by decide)
  · rw [processNominees_skip fs year a1
      (fun v rest hn => harr ⟨v, rest, hn⟩)] at h
    cases h
    rfl

theorem processNominees_iconOk (fs : FS) (year : Int) (a1 a2 : Dict) (ch2 : Bool)
    (h : processNominees fs year a1 = some (a2, ch2)) :
    ∀ nl, dictGet a2 "nominees" = some (.arr nl) →
      ∀ n ∈ nl, ∀ g : Dict, n = .obj g → iconOk year g := by
  by_cases harr : ∃ v : JVal, ∃ rest : List JVal,
      dictGet a1 "nominees" = some (.arr (v :: rest))
  · obtain ⟨v, rest, hn⟩ := harr
    rw [processNominees_arr fs year a1 v rest hn] at h
    cases hL : processNomList fs year (v :: rest) with
    | none => rw [hL] at h; cases h
    | some q =>
      obtain ⟨l', c⟩ := q
      rw [hL] at h
      dsimp only at h
      cases h
      intro nl hnl
      rw [dictGet_dictSet_self] at hnl
      cases Option.some.inj hnl
      exact processNomList_iconOk fs year (v :: rest) l' _ hL
  · rw [processNominees_skip fs year a1
      (fun v rest hn => harr ⟨v, rest, hn⟩)] at h
    cases h
    intro nl hnl n hn g hg
    cases nl with
    | nil => cases hn
    | cons x xs => exact absurd hnl (harr ⟨x, xs, hnl⟩).elim

theorem processAward_iconOk (fs : FS) (year : Int) (award a2 : Dict) (ch : Bool)
    (h : processAward fs year award = some (a2, ch)) :
    (∀ w, dictGet a2 "winner" = some (.obj w) → iconOk year w)
    ∧ (∀ nl, dictGet a2 "nominees" = some (.arr nl) →
        ∀ n ∈ nl, ∀ g : Dict, n = .obj g → iconOk year g) := by
  rw [processAward] at h
  cases hw : processWinner fs year award with
  | none => rw [hw] at h; cases h
  | some p =>
    obtain ⟨a1, ch1⟩ := p
    rw [hw] at h
    dsimp only at h
    cases hn : processNominees fs year a1 with
    | none => rw [hn] at h; cases h
    | some q =>
      obtain ⟨a2', ch2⟩ := q
      rw [hn] at h
      dsimp only at h
      cases h
      constructor
      · intro w hw2
        rw [processNominees_winner fs year a1 _ _ hn] at hw2
        exact processWinner_winner_iconOk fs year award a1 ch1 hw w hw2
      · exact processNominees_iconOk fs year a1 _ _ hn

theorem processAwards_cons_obj (fs : FS) (year : Int) (a : Dict) (rest : List JVal) :
    processAwards fs year (.obj a :: rest) =
      match processAward fs year a with
      | none => none
      | some (a', ch) =>
        match processAwards fs year rest with
        | none => none
        | some (rest', ch2) => some (.obj a' :: rest', ch || ch2) := rfl

theorem processAwards_cons_bad (fs : FS) (year : Int) (v : JVal) (rest : List JVal)
    (hv : ∀ a : Dict, v ≠ .obj a) :
    processAwards fs year (v :: rest) = none := by
  cases v with
  | obj a => exact absurd rfl (hv a)
  | null => rfl
  | bool b => rfl
  | num n => rfl
  | str s => rfl
  | arr l => rfl

theorem processAwards_iconOk (fs : FS) (year : Int) (l l' : List JVal) (ch : Bool)
    (h : processAwards fs year l = some (l', ch)) :
    ∀ a ∈ l', ∀ aw : Dict, a = .obj aw →
      (∀ w, dictGet aw "winner" = some (.obj w) → iconOk year w)
      ∧ (∀ nl, dictGet aw "nominees" = some (.arr nl) →
          ∀ n ∈ nl, ∀ g : Dict, n = .obj g → iconOk year g) := by
  induction l generalizing l' ch with
  | nil =>
    rw [processAwards] at h
    cases h
    intro a ha
    cases ha
  | cons v rest ih =>
    cases v with
    | obj a0 =>
      rw [processAwards_cons_obj] at h
      cases hA : processAward fs year a0 with
      | none => rw [hA] at h; cases h
      | some p =>
        obtain ⟨a0', c⟩ := p
        rw [hA] at h
        dsimp only at h
        cases hr : processAwards fs year rest with
        | none => rw [hr] at h; cases h
        | some q =>
          obtain ⟨rest', c2⟩ := q
          rw [hr] at h
          dsimp only at h
          cases h
          intro a ha aw haw
          rcases List.mem_cons.mp ha with h2 | h2
          · rw [h2] at haw
            cases haw
            exact processAward_iconOk fs year a0 _ _ hA
          · exact ih rest' _ hr a h2 aw haw
    | null =>
      rw [processAwards_cons_bad fs year _ rest (fun a he => JVal.noConfusion he)] at h
      cases h
    | bool b =>
      rw [processAwards_cons_bad fs year _ rest (fun a he => JVal.noConfusion he)] at h
      cases h
    | num n =>
      rw [processAwards_cons_bad fs year _ rest (fun a he => JVal.noConfusion he)] at h
      cases h
    | str s =>
      rw [processAwards_cons_bad fs year _ rest (fun a he => JVal.noConfusion he)] at h
      cases h
    | arr l2 =>
      rw [processAwards_cons_bad fs year _ rest (fun a he => JVal.noConfusion he)] at h
      cases h

/-! ## C4: the filled-icon invariant after processing -/

/-- C4: after a successful run over one file, every game object the driver
visited — the dict winner and each dict nominee of every award — carries a
non-empty `icon_url` that is either a web-relative path
`img/<year>/<filename>` or the fixed placeholder, whatever its prior
`icon_url` was. -/
theorem processFile_iconOk (fs : FS) (data d' : Dict) (ch : Bool) (year : Int)
    (h : processFile fs data = some (d', ch))
    (hy : pyInt (dictGet data "year") = some year) :
    ∀ l', dictGet d' "awards" = some (.arr l') →
      ∀ a ∈ l', ∀ aw : Dict, a = .obj aw →
        (∀ w, dictGet aw "winner" = some (.obj w) → iconOk year w)
        ∧ (∀ nl, dictGet aw "nominees" = some (.arr nl) →
            ∀ n ∈ nl, ∀ g : Dict, n = .obj g → iconOk year g) := by
  rw [processFile, hy] at h
  dsimp only at h
  cases hG : getAwards (dictGet data "awards") with
  | none => rw [hG] at h; cases h
  | some awards =>
    rw [hG] at h
    dsimp only at h
    cases hP : processAwards fs year awards with
    | none => rw [hP] at h; cases h
    | some q =>
      obtain ⟨awards', c⟩ := q
      rw [hP] at h
      dsimp only at h
      cases h
      intro l' hl'
      cases hA : dictGet data "awards" with
      | none =>
        rw [setAwards, hA] at hl'
        rw [hA] at hl'
        cases hl'
      | some v =>
        cases v with
        | arr l0 =>
          rw [setAwards, hA] at hl'
          rw [dictGet_dictSet_self] at hl'
          cases Option.some.inj hl'
          exact processAwards_iconOk fs year awards _ _ hP
        | null => rw [setAwards, hA] at hl'; rw [hA] at hl'; cases hl'
        | bool b => rw [setAwards, hA] at hl'; rw [hA] at hl'; cases hl'
        | num n => rw [setAwards, hA] at hl'; rw [hA] at hl'; cases hl'
        | str s => rw [setAwards, hA] at hl'; rw [hA] at hl'; cases hl'
        | obj o => rw [setAwards, hA] at hl'; rw [hA] at hl'; cases hl'

theorem processFile_iconOk_witness :
    iconOk 2023 [("game_name", JVal.str "Abc"), ("icon_url", JVal.str "img/2023/abc.jpg")] := by
  have h := processFile_iconOk
    ⟨fun p => p = "img/2023" ∨ p = "img/2023/abc.jpg"⟩
    [("year", JVal.num 2023),
     ("awards", JVal.arr [JVal.obj [("winner", JVal.obj [("game_name", JVal.str "Abc")])]])]
    [("year", JVal.num 2023),
     ("awards", JVal.arr [JVal.obj [("winner",
       JVal.obj [("game_name", JVal.str "Abc"),
                 ("icon_url", JVal.str "img/2023/abc.jpg")])]])]
    true 2023 rfl rfl
  exact (h _ rfl _ (List.mem_singleton.mpr rfl) _ rfl).1 _ rfl

/-! ## Lemmas: the changed flag tracks real content change -/

theorem processGame_change (fs : FS) (year : Int) (g g' : Dict) (ch : Bool)
    (h : processGame fs year g = some (g', ch)) : ch = true ↔ g' ≠ g := by
  obtain ⟨hf, hch⟩ := processGame_some fs year g g' ch h
  cases hraw : getStrOrEmpty (dictGet g "game_name") with
  | none => rw [fill_game_icon_none fs year g hraw] at hf; cases hf
  | some raw =>
    rw [fill_game_icon_eq fs year g raw hraw] at hf
    cases Option.some.inj hf
    have hicon : dictGet (dictSet g "icon_url" (JVal.str (fillValue fs year raw))) "icon_url"
        = some (JVal.str (fillValue fs year raw)) := dictGet_dictSet_self g "icon_url" _
    rw [hicon] at hch
    by_cases he : dictGet g "icon_url" = some (JVal.str (fillValue fs year raw))
    · have hb : beqOptJ (some (JVal.str (fillValue fs year raw))) (dictGet g "icon_url") = true :=
        (beqOptJ_str_iff _ _).mpr he
      rw [hb] at hch
      have hset : dictSet g "icon_url" (JVal.str (fillValue fs year raw)) = g :=
        dictSet_eq_self g "icon_url" _ he
      rw [hch, hset]
      simp
    · have hb : beqOptJ (some (JVal.str (fillValue fs year raw))) (dictGet g "icon_url") = false := by
        cases hbb : beqOptJ (some (JVal.str (fillValue fs year raw))) (dictGet g "icon_url") with
        | true => exact absurd ((beqOptJ_str_iff _ _).mp hbb) he
        | false => rfl
      rw [hb] at hch
      rw [hch]
      constructor
      · intro _ heq
        apply he
        rw [← heq]
        exact hicon
      · intro _
        rfl

theorem processWinner_change (fs : FS) (year : Int) (award a1 : Dict) (ch1 : Bool)
    (h : processWinner fs year award = some (a1, ch1)) :
    (ch1 = true ↔ a1 ≠ award)
    ∧ (a1 ≠ award → dictGet a1 "winner" ≠ dictGet award "winner") := by
  by_cases hobj : ∃ w : Dict, dictGet award "winner" = some (.obj w)
  · obtain ⟨w, hw⟩ := hobj
    rw [processWinner_obj fs year award w hw] at h
    cases hg : processGame fs year w with
    | none => rw [hg] at h; cases h
    | some p =>
      obtain ⟨w', c⟩ := p
      rw [hg] at h
      dsimp only at h
      cases h
      have hgc := processGame_change fs year w w' _ hg
      have hwin : dictGet (dictSet award "winner" (JVal.obj w')) "winner"
          = some (JVal.obj w') := dictGet_dictSet_self award "winner" _
      by_cases hww : w' = w
      · subst hww
        have hset : dictSet award "winner" (JVal.obj w') = award :=
          dictSet_eq_self award "winner" _ hw
        rw [hset]
        constructor
        · constructor
          · intro hc
            exact absurd rfl (hgc.mp hc)
          · intro hne
            exact absurd rfl hne
        · intro hne
          exact absurd rfl hne
      · have hc : ch1 = true := hgc.mpr hww
        have hne : dictGet (dictSet award "winner" (JVal.obj w')) "winner"
            ≠ dictGet award "winner" := by
          rw [hwin, hw]
          intro hx
          exact hww (by cases Option.some.inj hx; rfl)
        refine ⟨⟨fun _ => ne_of_dictGet_ne _ _ "winner" hne, fun _ => hc⟩, fun _ => hne⟩
  · rw [processWinner_skip fs year award (fun w hw => hobj ⟨w, hw⟩)] at h
    cases h
    exact ⟨by simp, fun hne => absurd rfl hne⟩

theorem processNomList_change (fs : FS) (year : Int) (l l' : List JVal) (ch : Bool)
    (h : processNomList fs year l = some (l', ch)) : ch = true ↔ l' ≠ l := by
  induction l generalizing l' ch with
  | nil =>
    rw [processNomList] at h
    cases h
    simp
  | cons v rest ih =>
    by_cases hobj : ∃ g0 : Dict, v = .obj g0
    · obtain ⟨g0, rfl⟩ := hobj
      rw [processNomList_cons_obj] at h
      cases hg : processGame fs year g0 with
      | none => rw [hg] at h; cases h
      | some p =>
        obtain ⟨g0', c⟩ := p
        rw [hg] at h
        dsimp only at h
        cases hr : processNomList fs year rest with
        | none => rw [hr] at h; cases h
        | some q =>
          obtain ⟨rest', c2⟩ := q
          rw [hr] at h
          dsimp only at h
          cases h
          have h1 := processGame_change fs year g0 g0' _ hg
          have h2 := ih rest' _ hr
          constructor
          · intro hc
            rcases Bool.or_eq_true_iff.mp hc with hc1 | hc2
            · intro heq
              have := (List.cons.injEq _ _ _ _ ▸ heq)
              exact (h1.mp hc1) (by
                have h3 := congrArg (fun l => l.head?) heq
                simp at h3
                cases h3
                rfl)
            · intro heq
              have h3 := congrArg (fun l => l.tail) heq
              simp at h3
              exact (h2.mp hc2) h3
          · intro hne
            by_contra hc
            rcases Bool.or_eq_false_iff.mp (Bool.not_eq_true _ |>.mp hc) with ⟨hc1, hc2⟩
            have he1 : g0' = g0 := by
              by_contra hx
              rw [h1.mpr hx] at hc1
              cases hc1
            have he2 : rest' = rest := by
              by_contra hx
              rw [h2.mpr hx] at hc2
              cases hc2
            rw [he1, he2] at hne
            exact hne rfl
    · have hv : ∀ g : Dict, v ≠ .obj g := fun g he => hobj ⟨g, he⟩
      rw [processNomList_cons_skip fs year v rest hv] at h
      cases hr : processNomList fs year rest with
      | none => rw [hr] at h; cases h
      | some q =>
        obtain ⟨rest', c2⟩ := q
        rw [hr] at h
        dsimp only at h
        cases h
        have h2 := ih rest' _ hr
        constructor
        · intro hc heq
          have h3 := congrArg (fun l => l.tail) heq
          simp at h3
          exact (h2.mp hc) h3
        · intro hne
          apply h2.mpr
          intro heq
          rw [heq] at hne
          exact hne rfl

theorem processNominees_change (fs : FS) (year : Int) (a1 a2 : Dict) (ch2 : Bool)
    (h : processNominees fs year a1 = some (a2, ch2)) : ch2 = true ↔ a2 ≠ a1 := by
  by_cases harr : ∃ v : JVal, ∃ rest : List JVal,
      dictGet a1 "nominees" = some (.arr (v :: rest))
  · obtain ⟨v, rest, hn⟩ := harr
    rw [processNominees_arr fs year a1 v rest hn] at h
    cases hL : processNomList fs year (v :: rest) with
    | none => rw [hL] at h; cases h
    | some q =>
      obtain ⟨l', c⟩ := q
      rw [hL] at h
      dsimp only at h
      cases h
      have hlc := processNomList_change fs year (v :: rest) l' _ hL
      by_cases hll : l' = v :: rest
      · subst hll
        have hset : dictSet a1 "nominees" (JVal.arr (v :: rest)) = a1 :=
          dictSet_eq_self a1 "nominees" _ hn
        rw [hset]
        constructor
        · intro hc
          exact absurd rfl (hlc.mp hc)
        · intro hne
          exact absurd rfl hne
      · have hc : ch2 = true := hlc.mpr hll
        have hne : dictGet (dictSet a1 "nominees" (JVal.arr l')) "nominees"
            ≠ dictGet a1 "nominees" := by
          rw [dictGet_dictSet_self, hn]
          intro hx
          exact hll (by cases Option.some.inj hx; rfl)
        exact ⟨fun _ => ne_of_dictGet_ne _ _ "nominees" hne, fun _ => hc⟩
  · rw [processNominees_skip fs year a1 (fun v rest hn => harr ⟨v, rest, hn⟩)] at h
    cases h
    simp

theorem processAward_change (fs : FS) (year : Int) (award a2 : Dict) (ch : Bool)
    (h : processAward fs year award = some (a2, ch)) : ch = true ↔ a2 ≠ award := by
  rw [processAward] at h
  cases hw : processWinner fs year award with
  | none => rw [hw] at h; cases h
  | some p =>
    obtain ⟨a1, ch1⟩ := p
    rw [hw] at h
    dsimp only at h
    cases hn : processNominees fs year a1 with
    | none => rw [hn] at h; cases h
    | some q =>
      obtain ⟨a2', ch2⟩ := q
      rw [hn] at h
      dsimp only at h
      cases h
      obtain ⟨hw1, hw2⟩ := processWinner_change fs year award a1 ch1 hw
      have hn1 := processNominees_change fs year a1 a2 ch2 hn
      have hnw := processNominees_winner fs year a1 a2 ch2 hn
      constructor
      · intro hc
        rcases Bool.or_eq_true_iff.mp hc with hc1 | hc2
        · have ha1 : a1 ≠ award := hw1.mp hc1
          have : dictGet a2 "winner" ≠ dictGet award "winner" := by
            rw [hnw]
            exact hw2 ha1
          exact ne_of_dictGet_ne _ _ "winner" this
        · have ha2 : a2 ≠ a1 := hn1.mp hc2
          by_cases hch1 : ch1 = true
          · have ha1 : a1 ≠ award := hw1.mp hch1
            have : dictGet a2 "winner" ≠ dictGet award "winner" := by
              rw [hnw]
              exact hw2 ha1
            exact ne_of_dictGet_ne _ _ "winner" this
          · have ha1 : a1 = award := by
              by_contra hx
              exact hch1 (hw1.mpr hx)
            rw [← ha1]
            exact ha2
      · intro hne
        by_contra hc
        rcases Bool.or_eq_false_iff.mp (Bool.not_eq_true _ |>.mp hc) with ⟨hc1, hc2⟩
        have ha1 : a1 = award := by
          by_contra hx
          rw [hw1.mpr hx] at hc1
          cases hc1
        have ha2 : a2 = a1 := by
          by_contra hx
          rw [hn1.mpr hx] at hc2
          cases hc2
        rw [ha2, ha1] at hne
        exact hne rfl

theorem processAwards_change (fs : FS) (year : Int) (l l' : List JVal) (ch : Bool)
    (h : processAwards fs year l = some (l', ch)) : ch = true ↔ l' ≠ l := by
  induction l generalizing l' ch with
  | nil =>
    rw [processAwards] at h
    cases h
    simp
  | cons v rest ih =>
    cases v with
    | obj a0 =>
      rw [processAwards_cons_obj] at h
      cases hA : processAward fs year a0 with
      | none => rw [hA] at h; cases h
      | some p =>
        obtain ⟨a0', c⟩ := p
        rw [hA] at h
        dsimp only at h
        cases hr : processAwards fs year rest with
        | none => rw [hr] at h; cases h
        | some q =>
          obtain ⟨rest', c2⟩ := q
          rw [hr] at h
          dsimp only at h
          cases h
          have h1 := processAward_change fs year a0 a0' _ hA
          have h2 := ih rest' _ hr
          constructor
          · intro hc
            rcases Bool.or_eq_true_iff.mp hc with hc1 | hc2
            · intro heq
              have h3 := congrArg (fun l => l.head?) heq
              simp at h3
              exact (h1.mp hc1) h3
            · intro heq
              have h3 := congrArg (fun l => l.tail) heq
              simp at h3
              exact (h2.mp hc2) h3
          · intro hne
            by_contra hc
            rcases Bool.or_eq_false_iff.mp (Bool.not_eq_true _ |>.mp hc) with ⟨hc1, hc2⟩
            have he1 : a0' = a0 := by
              by_contra hx
              rw [h1.mpr hx] at hc1
              cases hc1
            have he2 : rest' = rest := by
              by_contra hx
              rw [h2.mpr hx] at hc2
              cases hc2
            rw [he1, he2] at hne
            exact hne rfl
    | null =>
      rw [processAwards_cons_bad fs year _ rest (fun a he => JVal.noConfusion he)] at h
      cases h
    | bool b =>
      rw [processAwards_cons_bad fs year _ rest (fun a he => JVal.noConfusion he)] at h
      cases h
    | num n =>
      rw [processAwards_cons_bad fs year _ rest (fun a he => JVal.noConfusion he)] at h
      cases h
    | str s =>
      rw [processAwards_cons_bad fs year _ rest (fun a he => JVal.noConfusion he)] at h
      cases h
    | arr l2 =>
      rw [processAwards_cons_bad fs year _ rest (fun a he => JVal.noConfusion he)] at h
      cases h

theorem processFile_changed_iff (fs : FS) (data d' : Dict) (ch : Bool)
    (h : processFile fs data = some (d', ch)) : ch = true ↔ d' ≠ data := by
  rw [processFile] at h
  cases hy : pyInt (dictGet data "year") with
  | none => rw [hy] at h; cases h
  | some year =>
    rw [hy] at h
    dsimp only at h
    cases hG : getAwards (dictGet data "awards") with
    | none => rw [hG] at h; cases h
    | some awards =>
      rw [hG] at h
      dsimp only at h
      cases hP : processAwards fs year awards with
      | none => rw [hP] at h; cases h
      | some q =>
        obtain ⟨awards', c⟩ := q
        rw [hP] at h
        dsimp only at h
        cases h
        cases hA : dictGet data "awards" with
        | none =>
          rw [hA] at hG
          have haw : ([] : List JVal) = awards := Option.some.inj hG
          rw [← haw] at hP
          rw [processAwards] at hP
          cases hP
          rw [setAwards, hA]
          simp
        | some v =>
          cases v with
          | arr l0 =>
            rw [hA] at hG
            have haw : l0 = awards := Option.some.inj hG
            subst haw
            have hAC := processAwards_change fs year l0 awards' _ hP
            rw [setAwards, hA]
            constructor
            · intro hc
              have hne := hAC.mp hc
              apply ne_of_dictGet_ne _ _ "awards"
              rw [dictGet_dictSet_self, hA]
              intro hx
              exact hne (by cases Option.some.inj hx; rfl)
            · intro hne
              by_contra hc
              have heq : awards' = l0 := by
                by_contra hx
                rw [hAC.mpr hx] at hc
                exact hc rfl
              rw [heq] at hne
              exact hne (dictSet_eq_self data "awards" _ hA)
          | str s =>
            rw [hA] at hG
            by_cases hs : s = ""
            · subst hs
              have haw : ([] : List JVal) = awards := Option.some.inj hG
              rw [← haw] at hP
              rw [processAwards] at hP
              cases hP
              rw [setAwards, hA]
              simp
            · rw [getAwards] at hG
              rw [if_neg hs] at hG
              cases hG
          | obj o =>
            cases o with
            | nil =>
              rw [hA] at hG
              have haw : ([] : List JVal) = awards := Option.some.inj hG
              rw [← haw] at hP
              rw [processAwards] at hP
              cases hP
              rw [setAwards, hA]
              simp
            | cons x xs =>
              rw [hA] at hG
              cases hG
          | null =>
            rw [hA] at hG
            cases hG
          | bool b =>
            rw [hA] at hG
            cases hG
          | num n =>
            rw [hA] at hG
            cases hG

/-! ## C5: a file is rewritten exactly when an `icon_url` changed -/

/-- C5: for each input file the driver records a write (`some` rewritten
content) exactly when the `changed` flag is set — the flag the loop computes
as "some visited game object's `icon_url` comparison reported a change" —
and that flag is set exactly when processing actually altered the file's
object; a file whose records' `icon_url`s are all unchanged is left
unwritten with its content identical. -/
theorem runFiles_rewrite_iff (fs : FS) (d : Dict) (rest : List Dict)
    (d' : Dict) (ch : Bool) (h : processFile fs d = some (d', ch)) :
    runFiles fs (d :: rest)
      = ((if ch then some d' else none) :: (runFiles fs rest).1, (runFiles fs rest).2)
    ∧ (ch = true ↔ d' ≠ d) := by
  refine ⟨?_, processFile_changed_iff fs d d' ch h⟩
  rw [runFiles, h]

theorem runFiles_rewrite_iff_witness :
    runFiles ⟨fun _ => false⟩
        [[("year", JVal.num 5),
          ("awards", JVal.arr [JVal.obj [("winner",
            JVal.obj [("game_name", JVal.str "A")])]])]]
      = ([some [("year", JVal.num 5),
          ("awards", JVal.arr [JVal.obj [("winner",
            JVal.obj [("game_name", JVal.str "A"),
                      ("icon_url", JVal.str "img/*")])]])]], true) :=
  (runFiles_rewrite_iff ⟨fun _ => false⟩
    [("year", JVal.num 5),
     ("awards", JVal.arr [JVal.obj [("winner",
       JVal.obj [("game_name", JVal.str "A")])]])]
    []
    [("year", JVal.num 5),
     ("awards", JVal.arr [JVal.obj [("winner",
       JVal.obj [("game_name", JVal.str "A"),
                 ("icon_url", JVal.str "img/*")])]])]
    true rfl).1

/-! ## C7: a bad year aborts the whole run -/

/-- C7: a file whose `year` field is missing or cannot be coerced to an
integer makes `int(...)` raise: that file's processing yields no result and
the run over the remaining files stops dead — no write is performed for
this or any later file and the run does not complete (no per-file
recovery). -/
theorem year_failure_aborts (fs : FS) (d : Dict) (rest : List Dict)
    (h : pyInt (dictGet d "year") = none) :
    processFile fs d = none ∧ runFiles fs (d :: rest) = ([], false) := by
  have hf : processFile fs d = none := by rw [processFile, h]
  refine ⟨hf, ?_⟩
  rw [runFiles, hf]

theorem year_failure_aborts_witness :
    processFile ⟨fun _ => false⟩ [("awards", JVal.arr [])] = none
    ∧ runFiles ⟨fun _ => false⟩
        [[("awards", JVal.arr [])], [("year", JVal.num 2), ("awards", JVal.arr [])]]
      = ([], false) :=
  year_failure_aborts ⟨fun _ => false⟩ [("awards", JVal.arr [])]
    [[("year", JVal.num 2), ("awards", JVal.arr [])]] rfl

/-! ## C8: non-dict nominees are skipped silently -/

/-- C8: a nominee entry that is not a dict is skipped silently wherever it
sits in the list: processing the list with the entry equals processing the
list without it, with the entry spliced back unchanged at its position —
so the entry raises nothing, is left unmodified, contributes nothing to the
changed flag, and the remaining nominees are processed exactly as before. -/
theorem processNomList_skips_nondict (fs : FS) (year : Int) (v : JVal)
    (hv : ∀ g : Dict, v ≠ .obj g) (pre post : List JVal) :
    processNomList fs year (pre ++ v :: post)
      = (processNomList fs year (pre ++ post)).map
          (fun p => (p.1.take pre.length ++ v :: p.1.drop pre.length, p.2)) := by
  induction pre with
  | nil =>
    simp only [List.nil_append]
    rw [processNomList_cons_skip fs year v post hv]
    cases hr : processNomList fs year post with
    | none => rfl
    | some q =>
      obtain ⟨rest', c2⟩ := q
      rfl
  | cons a pre' ih =>
    by_cases hobj : ∃ g0 : Dict, a = .obj g0
    · obtain ⟨g0, rfl⟩ := hobj
      rw [List.cons_append, List.cons_append, processNomList_cons_obj,
        processNomList_cons_obj]
      cases hg : processGame fs year g0 with
      | none => rfl
      | some p =>
        obtain ⟨g0', c⟩ := p
        dsimp only
        rw [ih]
        cases hr : processNomList fs year (pre' ++ post) with
        | none => rfl
        | some q =>
          obtain ⟨l2, c2⟩ := q
          simp [List.take_succ_cons, List.drop_succ_cons]
    · have hva : ∀ g : Dict, a ≠ .obj g := fun g he => hobj ⟨g, he⟩
      rw [List.cons_append, List.cons_append,
        processNomList_cons_skip fs year a (pre' ++ v :: post) hva,
        processNomList_cons_skip fs year a (pre' ++ post) hva]
      rw [ih]
      cases hr : processNomList fs year (pre' ++ post) with
      | none => rfl
      | some q =>
        obtain ⟨l2, c2⟩ := q
        simp [List.take_succ_cons, List.drop_succ_cons]

theorem processNomList_skips_nondict_witness :
    processNomList ⟨fun _ => false⟩ 2023
        [JVal.obj [("game_name", JVal.str "A")], JVal.str "junk"]
      = (processNomList ⟨fun _ => false⟩ 2023
          [JVal.obj [("game_name", JVal.str "A")]]).map
          (fun p => (p.1.take 1 ++ JVal.str "junk" :: p.1.drop 1, p.2)) :=
  processNomList_skips_nondict ⟨fun _ => false⟩ 2023 (JVal.str "junk")
    (fun _ h => JVal.noConfusion h)
    [JVal.obj [("game_name", JVal.str "A")]] []

/-! ## C3: the record filler's case split -/

/-- C3: for a game object whose `game_name` is absent or a text value
(`getStrOrEmpty` succeeds, yielding the raw name `raw`): when the stripped
name is empty the placeholder is assigned directly and the result does not
depend on the filesystem (no lookup is performed); otherwise the located
path is assigned when the lookup succeeds and the placeholder otherwise;
in every case some object is returned (no error is raised for an unmatched
icon). -/
theorem fill_game_icon_cases (fs fs' : FS) (year : Int) (g : Dict) (raw : String)
    (hraw : getStrOrEmpty (dictGet g "game_name") = some raw) :
    (String.mk (pyStrip raw.data) = "" →
      fill_game_icon fs year g = some (dictSet g "icon_url" (.str PLACEHOLDER)) ∧
      fill_game_icon fs year g = fill_game_icon fs' year g)
    ∧ (String.mk (pyStrip raw.data) ≠ "" →
      fill_game_icon fs year g = some (dictSet g "icon_url" (.str
        (pathOrPlaceholder
          (find_image_for fs year (slugify (String.mk (pyStrip raw.data))))))))
    ∧ ∃ g', fill_game_icon fs year g = some g' := by
  have he := fill_game_icon_eq fs year g raw hraw
  have he' := fill_game_icon_eq fs' year g raw hraw
  refine ⟨fun hn => ⟨?_, ?_⟩, fun hn => ?_, ⟨_, he⟩⟩
  · rw [he, fillValue, if_pos hn]
  · rw [he, he', fillValue, if_pos hn]
    rw [fillValue, if_pos hn]
  · rw [he, fillValue, if_neg hn]

theorem fill_game_icon_cases_witness :
    fill_game_icon ⟨fun _ => false⟩ 2023 [("game_name", JVal.str "  ")]
      = some [("game_name", JVal.str "  "), ("icon_url", JVal.str "img/*")] := by
  have h := (fill_game_icon_cases ⟨fun _ => false⟩ ⟨fun _ => true⟩ 2023
    [("game_name", JVal.str "  ")] "  " rfl).1 (by decide)
  exact h.1

/-! ## C6: idempotence of the record filler -/

/-- C6: with a fixed filesystem and year, applying the Record Filler a
second time to its own output re-assigns exactly the same `icon_url`: the
output is a fixed point. -/
theorem fill_game_icon_idempotent (fs : FS) (year : Int) (g g₁ : Dict)
    (h : fill_game_icon fs year g = some g₁) :
    fill_game_icon fs year g₁ = some g₁ := by
  cases hraw : getStrOrEmpty (dictGet g "game_name") with
  | none => rw [fill_game_icon_none fs year g hraw] at h; cases h
  | some raw =>
    rw [fill_game_icon_eq fs year g raw hraw] at h
    cases h
    have hname : dictGet (dictSet g "icon_url" (JVal.str (fillValue fs year raw))) "game_name"
        = dictGet g "game_name" :=
      dictGet_dictSet_ne g "icon_url" "game_name" _ (by decide)
    have hraw1 : getStrOrEmpty
        (dictGet (dictSet g "icon_url" (JVal.str (fillValue fs year raw))) "game_name")
        = some raw := by rw [hname]; exact hraw
    rw [fill_game_icon_eq fs year _ raw hraw1, dictSet_dictSet]

theorem fill_game_icon_idempotent_witness :
    fill_game_icon ⟨fun _ => false⟩ 2023
        [("game_name", JVal.str "A"), ("icon_url", JVal.str "img/*")]
      = some [("game_name", JVal.str "A"), ("icon_url", JVal.str "img/*")] :=
  fill_game_icon_idempotent ⟨fun _ => false⟩ 2023
    [("game_name", JVal.str "A")]
    [("game_name", JVal.str "A"), ("icon_url", JVal.str "img/*")] rfl

/-! ## C9: the record filler writes only `icon_url` -/

/-- C9: the Record Filler modifies only the `icon_url` key: every other key
maps to the same value (and is present) after the call exactly as before,
and `icon_url` holds a string afterwards. -/
theorem fill_game_icon_frame (fs : FS) (year : Int) (g g' : Dict)
    (h : fill_game_icon fs year g = some g') :
    (∀ k, k ≠ "icon_url" → dictGet g' k = dictGet g k)
    ∧ ∃ u, dictGet g' "icon_url" = some (JVal.str u) := by
  cases hraw : getStrOrEmpty (dictGet g "game_name") with
  | none => rw [fill_game_icon_none fs year g hraw] at h; cases h
  | some raw =>
    rw [fill_game_icon_eq fs year g raw hraw] at h
    cases h
    exact ⟨fun k hk => dictGet_dictSet_ne g "icon_url" k _ hk,
      _, dictGet_dictSet_self g "icon_url" _⟩

theorem fill_game_icon_frame_witness :
    dictGet [("game_name", JVal.str "A"), ("icon_url", JVal.str "img/*")] "game_name"
      = dictGet [("game_name", JVal.str "A")] "game_name" :=
  (fill_game_icon_frame ⟨fun _ => false⟩ 2023 [("game_name", JVal.str "A")]
    [("game_name", JVal.str "A"), ("icon_url", JVal.str "img/*")] rfl).1
    "game_name" (by decide)

/-! ## C10: a non-dict winner is skipped -/

/-- C10: an award whose `winner` field is present but not a dict is skipped
silently: no exception is raised, the award (hence the winner value) is
left unmodified with no `icon_url` assigned, and the winner contributes
`false` to the file's changed flag. -/
theorem winner_not_dict_skipped (fs : FS) (year : Int) (award : Dict) (v : JVal)
    (hw : dictGet award "winner" = some v) (hv : ∀ w, v ≠ .obj w) :
    processWinner fs year award = some (award, false) := by
  cases v with
  | obj w => exact absurd rfl (hv w)
  | null => rw [processWinner, hw]
  | bool b => rw [processWinner, hw]
  | num n => rw [processWinner, hw]
  | str s => rw [processWinner, hw]
  | arr l => rw [processWinner, hw]

theorem winner_not_dict_skipped_witness :
    processWinner ⟨fun _ => false⟩ 2023
        [("winner", JVal.str "tbd"), ("nominees", JVal.arr [])]
      = some ([("winner", JVal.str "tbd"), ("nominees", JVal.arr [])], false) :=
  winner_not_dict_skipped ⟨fun _ => false⟩ 2023
    [("winner", JVal.str "tbd"), ("nominees", JVal.arr [])]
    (JVal.str "tbd") rfl (fun _ h => JVal.noConfusion h)

end FillIconUrls
